import Mathlib

/-!
Verification of the computational-geometry core of the TrailCurrent logo footprint
generator (`EDA/generate_logo_footprints.py`): the stroke offsetter
`offset_polyline_to_polygon`, the outline segmenter `split_outline_near_filled`, and
their leaf helpers `dist`, `lerp`, `normal_vec`, `point_to_segment_dist` and
`point_in_polygon`.

Embedding conventions.

The source computes with Python floats; the model idealizes that arithmetic exactly.
The segmenter and its helpers use only field operations and order comparisons, plus
`sqrt` in positions that are only ever compared against nonnegative thresholds; they
are embedded over the rationals, with each comparison `sqrt x < c` carried as the
equivalent `x < c^2` (the definitions `distSq` and `point_to_segment_distSq` note this
at their use sites). This keeps the segmenter executable, so the concrete theorems
below evaluate inside the kernel. The offsetter genuinely uses `sqrt`, `atan2`, `cos`
and `sin`, and is embedded over the reals, with `atan2 y x` modelled as the complex
argument of `x + y*I` (range `(-pi, pi]`, as in Python for non-signed-zero inputs).

Python loops that append to lists become maps and folds over `List.range`; each
wrapper definition names the source local it stands for in its doc comment, and
indexing `points[k]` becomes total indexing with a default that in-range uses never
read. Lists, pairs and Booleans translate directly.
-/

set_option maxRecDepth 100000

namespace LogoFootprints

/-- The 2D points of the segmenter side of the model. The Python source computes with
floating-point tuples; the segmenter and its leaf helpers only use field operations and
order comparisons, so they are embedded exactly over the rationals. -/
abbrev Point : Type := ℚ × ℚ

/-- Configuration constant `SAMPLES_PER_SEG = 20` (proximity sampling density). -/
def SAMPLES_PER_SEG : ℕ := 20

/-- Configuration constant `CLEARANCE_MM = 0.12` (gap between outline and filled shapes). -/
def CLEARANCE_MM : ℚ := 0.12

/-- `lerp(a, b, t)` from the source: linear interpolation between two points. -/
def lerp (a b : Point) (t : ℚ) : Point :=
  (a.1 + t * (b.1 - a.1), a.2 + t * (b.2 - a.2))

/-- The square of the source function `dist(a, b) = sqrt((bx-ax)^2 + (by-ay)^2)`.
The segmenter only compares `dist` against nonnegative thresholds, and for
`x, c >= 0` the comparison `sqrt x < c` holds exactly when `x < c^2`, so the model
carries the square. -/
def distSq (a b : Point) : ℚ :=
  (b.1 - a.1) ^ 2 + (b.2 - a.2) ^ 2

/-- The square of `point_to_segment_dist(px, py, ax, ay, bx, by)`. The clamp parameter
`t` and both branch conditions are exactly those of the source (the `len_sq < 1e-12`
guard is already stated on the squared length there); only the returned distance is
squared, matching the squared-comparison convention of `distSq`. -/
def point_to_segment_distSq (px py ax ay bx bY : ℚ) : ℚ :=
  let dx := bx - ax
  let dy := bY - ay
  let len_sq := dx * dx + dy * dy
  if len_sq < 1e-12 then distSq (px, py) (ax, ay)
  else
    let t := max 0 (min 1 (((px - ax) * dx + (py - ay) * dy) / len_sq))
    distSq (px, py) (ax + t * dx, ay + t * dy)

/-- One iteration of the `point_in_polygon` loop: `pij = (polygon[i], polygon[j])` with
`j` the predecessor index (wrapping), and `inside` the accumulator that is toggled when
the edge straddles the horizontal ray and the strict x-comparison holds. -/
def pipStep (px py : ℚ) (inside : Bool) (pij : Point × Point) : Bool :=
  let xi := pij.1.1
  let yi := pij.1.2
  let xj := pij.2.1
  let yj := pij.2.2
  if (decide (yi > py) != decide (yj > py)) &&
      decide (px < (xj - xi) * (py - yi) / (yj - yi) + xi)
  then !inside else inside

/-- `point_in_polygon(px, py, polygon)`: ray-casting even-odd test. The Python loop runs
`i = 0..n-1` with `j` starting at `n-1` and then trailing `i`, so the edge pairs are
`(polygon[0], polygon[n-1]), (polygon[1], polygon[0]), ...` - exactly the zip of the
polygon with the last point consed in front of it. An empty polygon runs no iterations
and returns `False`. -/
def point_in_polygon (px py : ℚ) (polygon : List Point) : Bool :=
  match polygon with
  | [] => false
  | p0 :: _ =>
      (polygon.zip (polygon.getLastD p0 :: polygon)).foldl (pipStep px py) false

/-- The consecutive vertex pairs `(outline[i], outline[i+1])`, `i = 0..len-2`, that the
segmenter walks. -/
def outlineSegs (outline : List Point) : List (Point × Point) :=
  outline.zip outline.tail

/-- The `SAMPLES_PER_SEG + 1` evenly spaced sample points `lerp(p1, p2, s / 20)`,
`s = 0..20`, of one outline segment. -/
def segSamples (p1 p2 : Point) : List Point :=
  (List.range (SAMPLES_PER_SEG + 1)).map fun (s : ℕ) =>
    lerp p1 p2 ((s : ℚ) / (SAMPLES_PER_SEG : ℚ))

/-- All sample points the segmenter visits, in order: each consecutive pair contributes
its samples unless its length is under `1e-9` (`seg_len < 1e-9` in the source, stated
here on the square), in which case the source `continue`s and contributes nothing. -/
def sampledPoints (outline : List Point) : List Point :=
  (outlineSegs outline).flatMap fun pq =>
    if distSq pq.1 pq.2 < (1e-9 : ℚ) ^ 2 then [] else segSamples pq.1 pq.2

/-- The per-sample suppression test of `split_outline_near_filled`: inside either fill
polygon, or (otherwise) within `clearance` of some edge. The source checks the edges
only when the point is not inside; the short-circuit disjunction below computes the
same Boolean. `d < clearance` is carried as `d^2 < clearance^2`, equivalent for the
nonnegative clearances the program uses (`CLEARANCE_MM = 0.12`). -/
def suppressedPt (trail_poly lightning_poly : List Point)
    (all_edges : List (Point × Point)) (clearance : ℚ) (pt : Point) : Bool :=
  point_in_polygon pt.1 pt.2 trail_poly ||
    point_in_polygon pt.1 pt.2 lightning_poly ||
      all_edges.any fun e =>
        decide (point_to_segment_distSq pt.1 pt.2 e.1.1 e.1.2 e.2.1 e.2.2 < clearance ^ 2)

/-- One sample step of the segmenter state machine: state `(result, current)`; a
suppressed sample emits `current` into `result` when it has at least 2 points and
clears it, a clear sample is appended to `current`. -/
def splitStep (suppress : Point → Bool) (st : List (List Point) × List Point)
    (pt : Point) : List (List Point) × List Point :=
  if suppress pt then
    (if 2 ≤ st.2.length then st.1 ++ [st.2] else st.1, [])
  else
    (st.1, st.2 ++ [pt])

/-- The final flush after the loops: a leftover `current` with at least 2 points is
emitted. -/
def splitFlush (st : List (List Point) × List Point) : List (List Point) :=
  if 2 ≤ st.2.length then st.1 ++ [st.2] else st.1

/-- `split_outline_near_filled(outline, trail_poly, lightning_poly, all_edges,
clearance)`: folds the state machine over all samples and flushes. The nested Python
loops visit exactly the points of `sampledPoints outline` in order, and the
classification of a sample depends only on the sample itself, so the fold is the
loop. -/
def split_outline_near_filled (outline trail_poly lightning_poly : List Point)
    (all_edges : List (Point × Point)) (clearance : ℚ) : List (List Point) :=
  splitFlush
    ((sampledPoints outline).foldl
      (splitStep (suppressedPt trail_poly lightning_poly all_edges clearance)) ([], []))

/-- Configuration constant `ENDCAP_SEGMENTS = 6` (steps per semicircular end cap). -/
def ENDCAP_SEGMENTS : ℕ := 6

noncomputable section

open scoped Classical

/-- The 2D points of the offsetter side of the model. The offsetter uses sqrt, atan2,
cos and sin, so its floating-point arithmetic is idealized over the reals. -/
abbrev RPoint : Type := ℝ × ℝ

/-- `math.atan2(y, x)`: the argument of the complex number `x + y*I`, in `(-pi, pi]`. -/
def atan2 (y x : ℝ) : ℝ := Complex.arg ⟨x, y⟩

/-- The local `length = sqrt(dx*dx + dy*dy)` computed inside `normal_vec` (and again as
`dl` in the end-cap code). -/
def segLength (p1 p2 : RPoint) : ℝ :=
  Real.sqrt ((p2.1 - p1.1) * (p2.1 - p1.1) + (p2.2 - p1.2) * (p2.2 - p1.2))

/-- `normal_vec(p1, p2)`: unit left normal of the segment, with the fixed fallback
`(0.0, 1.0)` when the length is under `1e-12`. -/
def normal_vec (p1 p2 : RPoint) : RPoint :=
  if segLength p1 p2 < 1e-12 then (0, 1)
  else (-(p2.2 - p1.2) / segLength p1 p2, (p2.1 - p1.1) / segLength p1 p2)

/-- Total list indexing standing for `points[k]`. Every index the offsetter uses is in
range for inputs with at least 2 points, so the default is never read there. -/
def ptGetD (points : List RPoint) (k : ℕ) : RPoint := points.getD k (0, 0)

/-- The local `n1 = normal_vec(points[i-1], points[i])` of the interior-vertex branch. -/
def vtxN1 (points : List RPoint) (i : ℕ) : RPoint :=
  normal_vec (ptGetD points (i - 1)) (ptGetD points i)

/-- The local `n2 = normal_vec(points[i], points[i+1])` of the interior-vertex branch. -/
def vtxN2 (points : List RPoint) (i : ℕ) : RPoint :=
  normal_vec (ptGetD points i) (ptGetD points (i + 1))

/-- The local `dot = n1[0]*n2[0] + n1[1]*n2[1]`. -/
def vtxDot (points : List RPoint) (i : ℕ) : ℝ :=
  (vtxN1 points i).1 * (vtxN2 points i).1 + (vtxN1 points i).2 * (vtxN2 points i).2

/-- The normalized sweep `da`: `a2 - a1` folded into `(-pi, pi]` by the two source
conditionals (`da > pi` and `da < -pi`), so the fan sweeps the short way. -/
def arcDa (a1 a2 : ℝ) : ℝ :=
  if a2 - a1 > Real.pi then a2 - a1 - 2 * Real.pi
  else if a2 - a1 < -Real.pi then a2 - a1 + 2 * Real.pi
  else a2 - a1

/-- `arc_segs = max(2, int(abs(da) / (pi/6)) + 1)`: Python `int` truncates toward zero,
which on the nonnegative `abs(da)` is the floor. -/
def arcSegs (da : ℝ) : ℕ :=
  max 2 ((Int.floor (|da| / (Real.pi / 6))).toNat + 1)

/-- The arc fan loop: points `center + half_width * (cos a, sin a)` at the
`segs + 1` angles `a = a1 + (j/segs) * da`, `j = 0..segs`. -/
def arcFan (center : RPoint) (half_width a1 da : ℝ) (segs : ℕ) : List RPoint :=
  (List.range (segs + 1)).map fun (j : ℕ) =>
    let t := (j : ℝ) / (segs : ℝ)
    let a := a1 + t * da
    (center.1 + Real.cos a * half_width, center.2 + Real.sin a * half_width)

/-- The miter displacement of the miter-join branch: the normalized bisector of `n1`
and `n2` scaled by `half_width * min(1/max(0.5, (1+dot)/2), 2.0)`; when the bisector
norm `bl` is not above `1e-12` the source falls back to `n1` scaled by `half_width`.
The left offset point is the vertex plus this vector, the right one the vertex minus
it. -/
def miterOffset (n1 n2 : RPoint) (half_width : ℝ) : RPoint :=
  let dot := n1.1 * n2.1 + n1.2 * n2.2
  let bx := n1.1 + n2.1
  let bY := n1.2 + n2.2
  let bl := Real.sqrt (bx * bx + bY * bY)
  if bl > 1e-12 then
    let hw := half_width * min (1.0 / max 0.5 ((1 + dot) / 2)) 2.0
    (bx / bl * hw, bY / bl * hw)
  else
    (n1.1 * half_width, n1.2 * half_width)

/-- The local `angle1_l = atan2(n1[1], n1[0])`. -/
def vtxAngle1 (points : List RPoint) (i : ℕ) : ℝ :=
  atan2 (vtxN1 points i).2 (vtxN1 points i).1

/-- The local `angle2_l = atan2(n2[1], n2[0])`. -/
def vtxAngle2 (points : List RPoint) (i : ℕ) : ℝ :=
  atan2 (vtxN2 points i).2 (vtxN2 points i).1

/-- The body of the main `for i in range(n)` loop of `offset_polyline_to_polygon`: the
pair of point lists appended to `left` and `right` for vertex `i` (endpoints use the
single adjacent normal; interior vertices use the arc fan when `round_joins and
dot < 0.95`, the mirrored fan on the right at angles shifted by pi, and the miter
displacement otherwise). -/
def offsetVertex (points : List RPoint) (half_width : ℝ) (round_joins : Bool) (i : ℕ) :
    List RPoint × List RPoint :=
  let n := points.length
  if i = 0 then
    let nv := normal_vec (ptGetD points 0) (ptGetD points 1)
    let p := ptGetD points 0
    ([(p.1 + nv.1 * half_width, p.2 + nv.2 * half_width)],
      [(p.1 - nv.1 * half_width, p.2 - nv.2 * half_width)])
  else if i = n - 1 then
    let nv := normal_vec (ptGetD points (n - 2)) (ptGetD points (n - 1))
    let p := ptGetD points (n - 1)
    ([(p.1 + nv.1 * half_width, p.2 + nv.2 * half_width)],
      [(p.1 - nv.1 * half_width, p.2 - nv.2 * half_width)])
  else
    if round_joins = true ∧ vtxDot points i < 0.95 then
      let angle1_l := vtxAngle1 points i
      let angle2_l := vtxAngle2 points i
      let da := arcDa angle1_l angle2_l
      let segs := arcSegs da
      let da_r := arcDa (angle1_l + Real.pi) (angle2_l + Real.pi)
      (arcFan (ptGetD points i) half_width angle1_l da segs,
        arcFan (ptGetD points i) half_width (angle1_l + Real.pi) da_r segs)
    else
      let d := miterOffset (vtxN1 points i) (vtxN2 points i) half_width
      let p := ptGetD points i
      ([(p.1 + d.1, p.2 + d.2)], [(p.1 - d.1, p.2 - d.2)])

/-- The `left` list after the loop: concatenation of the per-vertex contributions. -/
def leftPath (points : List RPoint) (half_width : ℝ) (round_joins : Bool) : List RPoint :=
  (List.range points.length).flatMap fun i => (offsetVertex points half_width round_joins i).1

/-- The `right` list after the loop. -/
def rightPath (points : List RPoint) (half_width : ℝ) (round_joins : Bool) : List RPoint :=
  (List.range points.length).flatMap fun i => (offsetVertex points half_width round_joins i).2

/-- The local `last_nv = normal_vec(points[-2], points[-1])` of the end-cap code. -/
def endNormal (points : List RPoint) : RPoint :=
  normal_vec (ptGetD points (points.length - 2)) (ptGetD points (points.length - 1))

/-- The end cap `start_angle = atan2(last_nv[1], last_nv[0])`. The source also computes
a normalized tangent `(dx, dy)` before the cap loop that it never uses. -/
def endAngle (points : List RPoint) : ℝ := atan2 (endNormal points).2 (endNormal points).1

/-- The local `first_nv = normal_vec(points[0], points[1])` of the start-cap code. -/
def startNormal (points : List RPoint) : RPoint :=
  normal_vec (ptGetD points 0) (ptGetD points 1)

/-- The start cap `start_angle = atan2(-first_nv[1], -first_nv[0])`. -/
def startAngle (points : List RPoint) : ℝ :=
  atan2 (-(startNormal points).2) (-(startNormal points).1)

/-- The end cap loop `for j in range(1, ENDCAP_SEGMENTS)`: points on the semicircle at
angles `start_angle - (j/ENDCAP_SEGMENTS) * pi` around the last point. -/
def endCap (points : List RPoint) (half_width : ℝ) : List RPoint :=
  let center := ptGetD points (points.length - 1)
  (List.range' 1 (ENDCAP_SEGMENTS - 1)).map fun (j : ℕ) =>
    let t := (j : ℝ) / (ENDCAP_SEGMENTS : ℝ)
    let a := endAngle points - t * Real.pi
    (center.1 + Real.cos a * half_width, center.2 + Real.sin a * half_width)

/-- The start cap loop, the same semicircle construction around the first point. -/
def startCap (points : List RPoint) (half_width : ℝ) : List RPoint :=
  let center := ptGetD points 0
  (List.range' 1 (ENDCAP_SEGMENTS - 1)).map fun (j : ℕ) =>
    let t := (j : ℝ) / (ENDCAP_SEGMENTS : ℝ)
    let a := startAngle points - t * Real.pi
    (center.1 + Real.cos a * half_width, center.2 + Real.sin a * half_width)

/-- `offset_polyline_to_polygon(points, half_width, round_caps, round_joins)`: passes
inputs with fewer than 2 points through unchanged; otherwise the polygon is the left
path, then the end cap when `round_caps`, then the reversed right path, then the start
cap when `round_caps`. -/
def offset_polyline_to_polygon (points : List RPoint) (half_width : ℝ)
    (round_caps round_joins : Bool) : List RPoint :=
  if points.length < 2 then points
  else
    leftPath points half_width round_joins ++
      (if round_caps = true then endCap points half_width else []) ++
        ((rightPath points half_width round_joins).reverse ++
          (if round_caps = true then startCap points half_width else []))

end

/-- Test fixture: the unit square. -/
def unitSquare : List Point := [(0, 0), (1, 0), (1, 1), (0, 1)]

/-- Test fixture: a closed triangular reference outline. -/
def triOutline : List Point := [(0, 0), (1, 0), (0, 1), (0, 0)]

/-- Test fixture: a fill triangle far away from `triOutline`. -/
def farTriangle : List Point := [(5, 5), (6, 5), (6, 6)]

/-- The boundary edges of `farTriangle`. -/
def farTriangleEdges : List (Point × Point) :=
  [((5, 5), (6, 5)), ((6, 5), (6, 6)), ((6, 6), (5, 5))]

/-- Test fixture: a large fill square containing `triOutline` entirely. -/
def bigSquare : List Point := [(-10, -10), (10, -10), (10, 10), (-10, 10)]

/-- Test fixture: three collinear points, a straight interior join. -/
def collinearPts : List RPoint := [((0 : ℝ), (0 : ℝ)), (1, 0), (2, 0)]

/-- Test fixture: a path that doubles back on itself, a 180-degree interior join. -/
def reversalPts : List RPoint := [((0 : ℝ), (0 : ℝ)), (1, 0), (0, 0)]

/-- Test fixture: a right-angle corner. -/
def cornerPts : List RPoint := [((0 : ℝ), (0 : ℝ)), (1, 0), (1, 1)]

/-- Test fixture: a single horizontal unit segment. -/
def segPts : List RPoint := [((0 : ℝ), (0 : ℝ)), (1, 0)]


/-- Folding the step over samples none of which is suppressed appends them all to the
current run and emits nothing. -/
theorem foldl_splitStep_append (suppress : Point → Bool) :
    ∀ (l : List Point) (res : List (List Point)) (cur : List Point),
      (∀ pt ∈ l, suppress pt = false) →
      l.foldl (splitStep suppress) (res, cur) = (res, cur ++ l) := by
  intro l
  induction l with
  | nil => intro res cur _; simp
  | cons pt l ih =>
      intro res cur h
      have hpt : suppress pt = false := h pt (List.mem_cons_self pt l)
      rw [List.foldl_cons, show splitStep suppress (res, cur) pt = (res, cur ++ [pt]) from
        by simp [splitStep, hpt]]
      rw [ih (res) (cur ++ [pt]) fun q hq => h q (List.mem_cons_of_mem pt hq)]
      simp

/-- Folding the step over samples all of which are suppressed, from the empty state,
stays in the empty state. -/
theorem foldl_splitStep_suppressed (suppress : Point → Bool) :
    ∀ (l : List Point), (∀ pt ∈ l, suppress pt = true) →
      l.foldl (splitStep suppress) ([], []) = ([], []) := by
  intro l
  induction l with
  | nil => intro _; simp
  | cons pt l ih =>
      intro h
      have hpt : suppress pt = true := h pt (List.mem_cons_self pt l)
      rw [List.foldl_cons, show splitStep suppress ([], []) pt = ([], []) from
        by simp [splitStep, hpt]]
      exact ih fun q hq => h q (List.mem_cons_of_mem pt hq)

/-- The fold preserves the invariant that every emitted run has at least 2 points. -/
theorem foldl_splitStep_ge_two (suppress : Point → Bool) :
    ∀ (l : List Point) (res : List (List Point)) (cur : List Point),
      (∀ x ∈ res, 2 ≤ x.length) →
      ∀ x ∈ (l.foldl (splitStep suppress) (res, cur)).1, 2 ≤ x.length := by
  intro l
  induction l with
  | nil => intro res cur h; simpa using h
  | cons pt l ih =>
      intro res cur h
      rw [List.foldl_cons]
      by_cases hs : suppress pt = true
      · by_cases h2 : 2 ≤ cur.length
        · rw [show splitStep suppress (res, cur) pt = (res ++ [cur], []) from
            by simp [splitStep, hs, h2]]
          refine ih (res ++ [cur]) [] ?_
          intro x hx
          rcases List.mem_append.mp hx with h' | h'
          · exact h x h'
          · rw [List.mem_singleton.mp h']; exact h2
        · rw [show splitStep suppress (res, cur) pt = (res, []) from
            by simp [splitStep, hs, h2]]
          exact ih res [] h
      · rw [show splitStep suppress (res, cur) pt = (res, cur ++ [pt]) from
          by simp [splitStep, hs]]
        exact ih res (cur ++ [pt]) h

/-- The final flush preserves the at-least-2-points invariant. -/
theorem splitFlush_ge_two (st : List (List Point) × List Point)
    (h : ∀ x ∈ st.1, 2 ≤ x.length) :
    ∀ x ∈ splitFlush st, 2 ≤ x.length := by
  intro x hx
  unfold splitFlush at hx
  by_cases h2 : 2 ≤ st.2.length
  · rw [if_pos h2] at hx
    rcases List.mem_append.mp hx with h' | h'
    · exact h x h'
    · rw [List.mem_singleton.mp h']; exact h2
  · rw [if_neg h2] at hx
    exact h x hx

/-- The emitted runs followed by the current run always form a sublist of the processed
input prefixed by the initial state. -/
theorem foldl_splitStep_flatten_sublist (suppress : Point → Bool) :
    ∀ (l : List Point) (res : List (List Point)) (cur : List Point),
      ((l.foldl (splitStep suppress) (res, cur)).1.flatten ++
        (l.foldl (splitStep suppress) (res, cur)).2).Sublist (res.flatten ++ (cur ++ l)) := by
  intro l
  induction l with
  | nil => intro res cur; simp
  | cons pt l ih =>
      intro res cur
      rw [List.foldl_cons]
      by_cases hs : suppress pt = true
      · by_cases h2 : 2 ≤ cur.length
        · rw [show splitStep suppress (res, cur) pt = (res ++ [cur], []) from
            by simp [splitStep, hs, h2]]
          refine (ih (res ++ [cur]) []).trans ?_
          have he : (res ++ [cur]).flatten ++ ([] ++ l) = res.flatten ++ (cur ++ l) := by
            simp
          rw [he]
          refine List.Sublist.append_left ?_ res.flatten
          exact List.Sublist.append_left (List.sublist_cons_self pt l) cur
        · rw [show splitStep suppress (res, cur) pt = (res, []) from
            by simp [splitStep, hs, h2]]
          refine (ih res []).trans ?_
          refine List.Sublist.append_left ?_ res.flatten
          simp only [List.nil_append]
          exact (List.sublist_cons_self pt l).trans (List.sublist_append_right cur (pt :: l))
      · rw [show splitStep suppress (res, cur) pt = (res, cur ++ [pt]) from
          by simp [splitStep, hs]]
        refine (ih res (cur ++ [pt])).trans ?_
        have he : res.flatten ++ ((cur ++ [pt]) ++ l) = res.flatten ++ (cur ++ pt :: l) := by
          simp
        rw [he]

/-- Flushing only keeps points of the state. -/
theorem splitFlush_flatten_sublist (st : List (List Point) × List Point) :
    (splitFlush st).flatten.Sublist (st.1.flatten ++ st.2) := by
  unfold splitFlush
  by_cases h2 : 2 ≤ st.2.length
  · rw [if_pos h2]
    simp
  · rw [if_neg h2]
    exact List.sublist_append_left _ _

/-- Every sample point is a convex combination of a consecutive, non-degenerate pair of
outline vertices. -/
theorem mem_sampledPoints (outline : List Point) :
    ∀ pt ∈ sampledPoints outline, ∃ pq ∈ outlineSegs outline,
      ¬ distSq pq.1 pq.2 < (1e-9 : ℚ) ^ 2 ∧
        ∃ t : ℚ, 0 ≤ t ∧ t ≤ 1 ∧ pt = lerp pq.1 pq.2 t := by
  intro pt hpt
  unfold sampledPoints at hpt
  rcases List.mem_flatMap.mp hpt with ⟨pq, hpq, hmem⟩
  by_cases hdeg : distSq pq.1 pq.2 < (1e-9 : ℚ) ^ 2
  · rw [if_pos hdeg] at hmem
    cases hmem
  · rw [if_neg hdeg] at hmem
    unfold segSamples at hmem
    obtain ⟨s, hs, hlerp⟩ : ∃ s : ℕ, s ∈ List.range (SAMPLES_PER_SEG + 1) ∧
        lerp pq.1 pq.2 ((s : ℚ) / (SAMPLES_PER_SEG : ℚ)) = pt := List.mem_map.mp hmem
    refine ⟨pq, hpq, hdeg, (s : ℚ) / (SAMPLES_PER_SEG : ℚ), ?_, ?_, hlerp.symm⟩
    · exact div_nonneg (Nat.cast_nonneg s) (Nat.cast_nonneg _)
    · have hs' : s < SAMPLES_PER_SEG + 1 := List.mem_range.mp hs
      rw [div_le_one (by norm_num [SAMPLES_PER_SEG])]
      exact_mod_cast Nat.lt_succ_iff.mp hs'

/-- Claim C1, counterexample. For the closed triangle outline `triOutline` with all fill
geometry far away (so no sample is suppressed), the segmenter does not return the outline
minus its final wrap point: it returns the sampled refinement of the outline (21 samples
per segment, 63 points here), not the 3 outline vertices. -/
theorem split_idempotence_counterexample :
    split_outline_near_filled triOutline farTriangle [] farTriangleEdges CLEARANCE_MM ≠
      [[((0 : ℚ), (0 : ℚ)), (1, 0), (0, 1)]] := by
  with_unfolding_all decide

/-- Claim C1, amended. If every sampled point of the outline lies outside both fill
polygons and at squared distance at least `clearance^2` from every fill edge, and there
are at least 2 samples, the segmenter returns exactly one sub-polyline: the full sampled
refinement of the reference outline, in traversal order (including the final wrap
point). -/
theorem split_outline_all_clear (outline trail_poly lightning_poly : List Point)
    (all_edges : List (Point × Point)) (clearance : ℚ)
    (h : ∀ pt ∈ sampledPoints outline,
      point_in_polygon pt.1 pt.2 trail_poly = false ∧
        point_in_polygon pt.1 pt.2 lightning_poly = false ∧
          ∀ e ∈ all_edges,
            clearance ^ 2 ≤ point_to_segment_distSq pt.1 pt.2 e.1.1 e.1.2 e.2.1 e.2.2)
    (h2 : 2 ≤ (sampledPoints outline).length) :
    split_outline_near_filled outline trail_poly lightning_poly all_edges clearance
      = [sampledPoints outline] := by
  unfold split_outline_near_filled
  have hsup : ∀ pt ∈ sampledPoints outline,
      suppressedPt trail_poly lightning_poly all_edges clearance pt = false := by
    intro pt hpt
    obtain ⟨ha, hb, hc⟩ := h pt hpt
    unfold suppressedPt
    rw [ha, hb]
    simp only [Bool.false_or]
    rw [List.any_eq_false]
    intro e he
    simp only [decide_eq_true_eq]
    exact not_lt.mpr (hc e he)
  rw [foldl_splitStep_append _ _ [] [] hsup]
  unfold splitFlush
  simp only [List.nil_append]
  rw [if_pos h2]

theorem split_outline_all_clear_witness :
    split_outline_near_filled triOutline farTriangle [] farTriangleEdges CLEARANCE_MM
      = [sampledPoints triOutline] :=
  split_outline_all_clear triOutline farTriangle [] farTriangleEdges CLEARANCE_MM
    (by with_unfolding_all decide) (by with_unfolding_all decide)

/-- Claim C6. If every sampled point of the reference outline is inside a fill polygon
or within the clearance of a fill edge, the segmenter returns the empty sequence. -/
theorem split_outline_full_suppression (outline trail_poly lightning_poly : List Point)
    (all_edges : List (Point × Point)) (clearance : ℚ)
    (h : ∀ pt ∈ sampledPoints outline,
      point_in_polygon pt.1 pt.2 trail_poly = true ∨
        point_in_polygon pt.1 pt.2 lightning_poly = true ∨
          ∃ e ∈ all_edges,
            point_to_segment_distSq pt.1 pt.2 e.1.1 e.1.2 e.2.1 e.2.2 < clearance ^ 2) :
    split_outline_near_filled outline trail_poly lightning_poly all_edges clearance = [] := by
  unfold split_outline_near_filled
  have hsup : ∀ pt ∈ sampledPoints outline,
      suppressedPt trail_poly lightning_poly all_edges clearance pt = true := by
    intro pt hpt
    unfold suppressedPt
    rcases h pt hpt with ha | hb | ⟨e, he, hd⟩
    · rw [ha]; simp
    · rw [hb]; simp
    · rw [List.any_eq_true.mpr ⟨e, he, by simpa using hd⟩]
      simp
  rw [foldl_splitStep_suppressed _ _ hsup]
  simp [splitFlush]

theorem split_outline_full_suppression_witness :
    split_outline_near_filled triOutline bigSquare [] [] CLEARANCE_MM = [] :=
  split_outline_full_suppression triOutline bigSquare [] [] CLEARANCE_MM
    (by with_unfolding_all decide)

/-- Claim C7. Every sub-polyline the segmenter returns has at least 2 points, for all
inputs: a run is emitted, on a suppression break or at the final flush, only when it has
accumulated at least 2 points. -/
theorem split_outline_segments_ge_two (outline trail_poly lightning_poly : List Point)
    (all_edges : List (Point × Point)) (clearance : ℚ) :
    ∀ l ∈ split_outline_near_filled outline trail_poly lightning_poly all_edges clearance,
      2 ≤ l.length := by
  intro l hl
  unfold split_outline_near_filled at hl
  exact splitFlush_ge_two _
    (foldl_splitStep_ge_two _ (sampledPoints outline) [] [] (by simp)) l hl

theorem split_outline_segments_ge_two_witness :
    2 ≤ ((split_outline_near_filled triOutline farTriangle [] farTriangleEdges
      CLEARANCE_MM).headD []).length :=
  split_outline_segments_ge_two triOutline farTriangle [] farTriangleEdges CLEARANCE_MM _
    (by with_unfolding_all decide)

/-- Claim C10. The concatenation of the returned sub-polylines is a sublist of the
sample sequence (so every returned point is a sample and the traversal order is
preserved, within and across sub-polylines), and every sample is `lerp p1 p2 t` with
`0 <= t <= 1` for some consecutive outline pair `(p1, p2)` whose squared length is at
least `(1e-9)^2`; degenerate segments contribute no samples at all. -/
theorem split_outline_points_from_outline (outline trail_poly lightning_poly : List Point)
    (all_edges : List (Point × Point)) (clearance : ℚ) :
    ((split_outline_near_filled outline trail_poly lightning_poly all_edges
        clearance).flatten).Sublist (sampledPoints outline) ∧
      ∀ pt ∈ sampledPoints outline, ∃ pq ∈ outlineSegs outline,
        ¬ distSq pq.1 pq.2 < (1e-9 : ℚ) ^ 2 ∧
          ∃ t : ℚ, 0 ≤ t ∧ t ≤ 1 ∧ pt = lerp pq.1 pq.2 t := by
  constructor
  · unfold split_outline_near_filled
    refine (splitFlush_flatten_sublist _).trans ?_
    have h := foldl_splitStep_flatten_sublist
      (suppressedPt trail_poly lightning_poly all_edges clearance)
      (sampledPoints outline) [] []
    simpa using h
  · exact mem_sampledPoints outline

/-- Claim C8. The ray-casting containment test classifies `(1/2, 1/2)` as inside the
unit square and `(2, 2)` as outside; on the vertex `(0, 0)` it returns the fixed value
`true` - the function is pure, so repeated calls at equal arguments are equal by
definition, and this pins the value the vertex case deterministically takes. -/
theorem point_in_polygon_containment :
    point_in_polygon (1/2) (1/2) unitSquare = true ∧
      point_in_polygon 2 2 unitSquare = false ∧
        point_in_polygon 0 0 unitSquare = true := by
  with_unfolding_all decide

/-- The computed normal is always a unit vector, in both branches. -/
theorem normal_vec_norm_sq (p1 p2 : RPoint) :
    (normal_vec p1 p2).1 ^ 2 + (normal_vec p1 p2).2 ^ 2 = 1 := by
  unfold normal_vec
  by_cases h : segLength p1 p2 < 1e-12
  · rw [if_pos h]
    norm_num
  · rw [if_neg h]
    have h0 : 0 ≤ (p2.1 - p1.1) * (p2.1 - p1.1) + (p2.2 - p1.2) * (p2.2 - p1.2) :=
      add_nonneg (mul_self_nonneg _) (mul_self_nonneg _)
    have hpos : (0 : ℝ) < segLength p1 p2 := lt_of_lt_of_le (by norm_num) (not_lt.mp h)
    have hne : segLength p1 p2 ≠ 0 := ne_of_gt hpos
    have hsq : segLength p1 p2 ^ 2 =
        (p2.1 - p1.1) * (p2.1 - p1.1) + (p2.2 - p1.2) * (p2.2 - p1.2) := by
      unfold segLength
      exact Real.sq_sqrt h0
    field_simp
    nlinarith [hsq]

theorem atan2_le_pi (y x : ℝ) : atan2 y x ≤ Real.pi := Complex.arg_le_pi _

theorem neg_pi_lt_atan2 (y x : ℝ) : -Real.pi < atan2 y x := Complex.neg_pi_lt_arg _

/-- On a unit vector, cosine and sine of `atan2` recover the components. -/
theorem cos_sin_atan2_unit (v : RPoint) (hv : v.1 ^ 2 + v.2 ^ 2 = 1) :
    Real.cos (atan2 v.2 v.1) = v.1 ∧ Real.sin (atan2 v.2 v.1) = v.2 := by
  have habs : Complex.abs ⟨v.1, v.2⟩ = 1 := by
    rw [Complex.abs_apply, Complex.normSq_mk,
      show v.1 * v.1 + v.2 * v.2 = v.1 ^ 2 + v.2 ^ 2 from by ring, hv]
    exact Real.sqrt_one
  have hne : (⟨v.1, v.2⟩ : ℂ) ≠ 0 := by
    intro h0
    rw [h0] at habs
    simp at habs
  unfold atan2
  constructor
  · rw [Complex.cos_arg hne, habs]
    simp
  · rw [Complex.sin_arg, habs]
    simp

/-- The normalized sweep of two angles in `(-pi, pi]` has absolute value at most pi. -/
theorem arcDa_abs_le (a1 a2 : ℝ) (h1l : -Real.pi < a1) (h1u : a1 ≤ Real.pi)
    (h2l : -Real.pi < a2) (h2u : a2 ≤ Real.pi) : |arcDa a1 a2| ≤ Real.pi := by
  have hpi : (0 : ℝ) < Real.pi := Real.pi_pos
  unfold arcDa
  by_cases hgt : a2 - a1 > Real.pi
  · rw [if_pos hgt, abs_le]
    constructor <;> nlinarith
  · rw [if_neg hgt]
    by_cases hlt : a2 - a1 < -Real.pi
    · rw [if_pos hlt, abs_le]
      constructor <;> nlinarith
    · rw [if_neg hlt, abs_le]
      constructor <;> nlinarith

/-- The normalization only shifts by full turns: the fan ends at the angle `a2`. -/
theorem cos_sin_arcDa_add (a1 a2 : ℝ) :
    Real.cos (a1 + arcDa a1 a2) = Real.cos a2 ∧
      Real.sin (a1 + arcDa a1 a2) = Real.sin a2 := by
  unfold arcDa
  by_cases hgt : a2 - a1 > Real.pi
  · rw [if_pos hgt, show a1 + (a2 - a1 - 2 * Real.pi) = a2 - 2 * Real.pi from by ring]
    exact ⟨Real.cos_sub_two_pi a2, Real.sin_sub_two_pi a2⟩
  · rw [if_neg hgt]
    by_cases hlt : a2 - a1 < -Real.pi
    · rw [if_pos hlt, show a1 + (a2 - a1 + 2 * Real.pi) = a2 + 2 * Real.pi from by ring]
      exact ⟨Real.cos_add_two_pi a2, Real.sin_add_two_pi a2⟩
    · rw [if_neg hlt, show a1 + (a2 - a1) = a2 from by ring]
      exact ⟨rfl, rfl⟩

/-- Shifting both angles by pi leaves the normalized sweep unchanged, so the right fan
mirrors the left one. -/
theorem arcDa_add_pi (a1 a2 : ℝ) : arcDa (a1 + Real.pi) (a2 + Real.pi) = arcDa a1 a2 := by
  unfold arcDa
  rw [show a2 + Real.pi - (a1 + Real.pi) = a2 - a1 from by ring]

theorem arcSegs_ge_two (da : ℝ) : 2 ≤ arcSegs da := le_max_left _ _

/-- The per-step sweep of the fan is under 30 degrees. -/
theorem arcSegs_step_lt (da : ℝ) : |da| / (arcSegs da : ℝ) < Real.pi / 6 := by
  have hpi6 : (0 : ℝ) < Real.pi / 6 := by positivity
  have hx0 : (0 : ℝ) ≤ |da| / (Real.pi / 6) := by positivity
  have hcast : ((Int.floor (|da| / (Real.pi / 6))).toNat : ℤ) =
      Int.floor (|da| / (Real.pi / 6)) :=
    Int.toNat_of_nonneg (Int.floor_nonneg.mpr hx0)
  have hlt : |da| / (Real.pi / 6) < ((Int.floor (|da| / (Real.pi / 6))).toNat + 1 : ℝ) := by
    have h1 : |da| / (Real.pi / 6) < (Int.floor (|da| / (Real.pi / 6)) : ℝ) + 1 :=
      Int.lt_floor_add_one _
    have h2 : ((Int.floor (|da| / (Real.pi / 6))).toNat : ℝ) =
        ((Int.floor (|da| / (Real.pi / 6)) : ℤ) : ℝ) := by
      exact_mod_cast congrArg (fun z : ℤ => (z : ℝ)) hcast
    rw [h2]
    exact h1
  have hseg : |da| / (Real.pi / 6) < (arcSegs da : ℝ) := by
    refine lt_of_lt_of_le hlt ?_
    have hmax : (Int.floor (|da| / (Real.pi / 6))).toNat + 1 ≤ arcSegs da := le_max_right _ _
    exact_mod_cast hmax
  have hp : (0 : ℝ) < (arcSegs da : ℝ) := by
    have h2' := arcSegs_ge_two da
    have : (2 : ℝ) ≤ (arcSegs da : ℝ) := by exact_mod_cast h2'
    linarith
  rw [div_lt_iff₀ hp]
  have := mul_lt_mul_of_pos_right hseg hpi6
  calc |da| = |da| / (Real.pi / 6) * (Real.pi / 6) := by field_simp
  _ < (arcSegs da : ℝ) * (Real.pi / 6) := this
  _ = Real.pi / 6 * (arcSegs da : ℝ) := by ring

/-- With a non-degenerate bisector, the miter displacement has squared length exactly
the capped miter scale times the half width, squared, and is parallel to the bisector. -/
theorem miterOffset_formula (n1 n2 : RPoint) (half_width : ℝ)
    (hbl : Real.sqrt ((n1.1 + n2.1) * (n1.1 + n2.1) + (n1.2 + n2.2) * (n1.2 + n2.2)) > 1e-12) :
    (miterOffset n1 n2 half_width).1 ^ 2 + (miterOffset n1 n2 half_width).2 ^ 2 =
        (half_width * min (1.0 / max 0.5 ((1 + (n1.1 * n2.1 + n1.2 * n2.2)) / 2)) 2.0) ^ 2 ∧
      (miterOffset n1 n2 half_width).1 * (n1.2 + n2.2) =
        (miterOffset n1 n2 half_width).2 * (n1.1 + n2.1) := by
  have hblpos : (0 : ℝ) <
      Real.sqrt ((n1.1 + n2.1) * (n1.1 + n2.1) + (n1.2 + n2.2) * (n1.2 + n2.2)) := by
    linarith [hbl]
  have hbl2 : Real.sqrt ((n1.1 + n2.1) * (n1.1 + n2.1) + (n1.2 + n2.2) * (n1.2 + n2.2)) ^ 2 =
      (n1.1 + n2.1) * (n1.1 + n2.1) + (n1.2 + n2.2) * (n1.2 + n2.2) :=
    Real.sq_sqrt (add_nonneg (mul_self_nonneg _) (mul_self_nonneg _))
  have hne : Real.sqrt ((n1.1 + n2.1) * (n1.1 + n2.1) + (n1.2 + n2.2) * (n1.2 + n2.2)) ≠ 0 :=
    ne_of_gt hblpos
  simp only [miterOffset]
  rw [if_pos hbl]
  dsimp only
  constructor
  · set S := Real.sqrt ((n1.1 + n2.1) * (n1.1 + n2.1) + (n1.2 + n2.2) * (n1.2 + n2.2)) with hS
    set A := n1.1 + n2.1 with hA
    set B := n1.2 + n2.2 with hB
    set w := half_width * min (1.0 / max 0.5 ((1 + (n1.1 * n2.1 + n1.2 * n2.2)) / 2)) 2.0 with hw
    have hstep : (A / S * w) ^ 2 + (B / S * w) ^ 2 = ((A * A + B * B) / S ^ 2) * w ^ 2 := by
      ring
    rw [hstep, ← hbl2, div_self (pow_ne_zero 2 hne), one_mul]
  · ring

/-- The miter displacement never exceeds twice the half width (`n1` is unit). -/
theorem miterOffset_norm_le (n1 n2 : RPoint) (half_width : ℝ)
    (h1 : n1.1 ^ 2 + n1.2 ^ 2 = 1) (hw : 0 ≤ half_width) :
    (miterOffset n1 n2 half_width).1 ^ 2 + (miterOffset n1 n2 half_width).2 ^ 2 ≤
      (2 * half_width) ^ 2 := by
  by_cases hbl : Real.sqrt ((n1.1 + n2.1) * (n1.1 + n2.1) + (n1.2 + n2.2) * (n1.2 + n2.2)) > 1e-12
  · have heq := (miterOffset_formula n1 n2 half_width hbl).1
    rw [heq]
    have hden : (0 : ℝ) < max 0.5 ((1 + (n1.1 * n2.1 + n1.2 * n2.2)) / 2) :=
      lt_of_lt_of_le (by norm_num) (le_max_left _ _)
    have hm0 : 0 ≤ min (1.0 / max 0.5 ((1 + (n1.1 * n2.1 + n1.2 * n2.2)) / 2)) 2.0 := by
      apply le_min
      · exact le_of_lt (div_pos (by norm_num) hden)
      · norm_num
    have hm2 : min (1.0 / max 0.5 ((1 + (n1.1 * n2.1 + n1.2 * n2.2)) / 2)) 2.0 ≤ (2 : ℝ) :=
      le_trans (min_le_right _ _) (by norm_num)
    have hmm : half_width * min (1.0 / max 0.5 ((1 + (n1.1 * n2.1 + n1.2 * n2.2)) / 2)) 2.0 ≤
        half_width * 2 := mul_le_mul_of_nonneg_left hm2 hw
    have hm0' : 0 ≤ half_width * min (1.0 / max 0.5 ((1 + (n1.1 * n2.1 + n1.2 * n2.2)) / 2)) 2.0 :=
      mul_nonneg hw hm0
    calc (half_width * min (1.0 / max 0.5 ((1 + (n1.1 * n2.1 + n1.2 * n2.2)) / 2)) 2.0) ^ 2
        ≤ (half_width * 2) ^ 2 := pow_le_pow_left₀ hm0' hmm 2
    _ = (2 * half_width) ^ 2 := by ring
  · simp only [miterOffset]
    rw [if_neg hbl]
    have hval : (n1.1 * half_width, n1.2 * half_width).1 ^ 2 +
        (n1.1 * half_width, n1.2 * half_width).2 ^ 2 = half_width ^ 2 := by
      calc (n1.1 * half_width, n1.2 * half_width).1 ^ 2 +
          (n1.1 * half_width, n1.2 * half_width).2 ^ 2
          = (n1.1 ^ 2 + n1.2 ^ 2) * half_width ^ 2 := by ring
      _ = half_width ^ 2 := by rw [h1, one_mul]
    rw [hval]
    nlinarith [sq_nonneg half_width]

theorem segLength_eq_one (p1 p2 : RPoint)
    (h : (p2.1 - p1.1) * (p2.1 - p1.1) + (p2.2 - p1.2) * (p2.2 - p1.2) = 1) :
    segLength p1 p2 = 1 := by
  unfold segLength
  rw [h]
  exact Real.sqrt_one

theorem normal_vec_of_unit (p1 p2 : RPoint) (h : segLength p1 p2 = 1) :
    normal_vec p1 p2 = (-(p2.2 - p1.2), p2.1 - p1.1) := by
  unfold normal_vec
  rw [if_neg (by rw [h]; norm_num), h]
  norm_num

/-- Claim C9. A segment of length under `1e-12` gets the fixed normal `(0, 1)` instead
of a division by the near-zero length; any longer segment divides by its length, which
is at least `1e-12`, and the result is a unit vector - the computation is total and
well defined on every input. -/
theorem normal_vec_total (p1 p2 : RPoint) :
    (segLength p1 p2 < 1e-12 → normal_vec p1 p2 = (0, 1)) ∧
      ((1e-12 : ℝ) ≤ segLength p1 p2 →
        normal_vec p1 p2 =
            (-(p2.2 - p1.2) / segLength p1 p2, (p2.1 - p1.1) / segLength p1 p2) ∧
          (normal_vec p1 p2).1 ^ 2 + (normal_vec p1 p2).2 ^ 2 = 1) := by
  constructor
  · intro h
    unfold normal_vec
    rw [if_pos h]
  · intro h
    refine ⟨?_, normal_vec_norm_sq p1 p2⟩
    unfold normal_vec
    rw [if_neg (not_lt.mpr h)]

theorem segLength_degenerate : segLength ((0 : ℝ), (0 : ℝ)) ((0 : ℝ), (0 : ℝ)) = 0 := by
  unfold segLength
  norm_num

theorem segLength_unit_e1 : segLength ((0 : ℝ), (0 : ℝ)) ((1 : ℝ), (0 : ℝ)) = 1 :=
  segLength_eq_one _ _ (by norm_num)

theorem normal_vec_total_witness :
    normal_vec ((0 : ℝ), (0 : ℝ)) ((0 : ℝ), (0 : ℝ)) = (0, 1) ∧
      normal_vec ((0 : ℝ), (0 : ℝ)) ((1 : ℝ), (0 : ℝ)) =
        (-((((1 : ℝ), (0 : ℝ)) : RPoint).2 - (((0 : ℝ), (0 : ℝ)) : RPoint).2) /
            segLength ((0 : ℝ), (0 : ℝ)) ((1 : ℝ), (0 : ℝ)),
          ((((1 : ℝ), (0 : ℝ)) : RPoint).1 - (((0 : ℝ), (0 : ℝ)) : RPoint).1) /
            segLength ((0 : ℝ), (0 : ℝ)) ((1 : ℝ), (0 : ℝ))) :=
  ⟨(normal_vec_total ((0 : ℝ), (0 : ℝ)) ((0 : ℝ), (0 : ℝ))).1
      (by rw [segLength_degenerate]; norm_num),
    ((normal_vec_total ((0 : ℝ), (0 : ℝ)) ((1 : ℝ), (0 : ℝ))).2
      (by rw [segLength_unit_e1]; norm_num)).1⟩

/-- Claim C3, amended. At an interior vertex where the miter branch is taken (round
joins disabled or `dot >= 0.95`), the single left and right offset points are the vertex
displaced by plus and minus the miter vector; whenever the bisector `n1 + n2` has norm
above `1e-12` (always the case when `dot >= 0.95`) that vector is parallel to the
bisector with squared length exactly `(half_width * min(1/max(0.5, (1+dot)/2), 2))^2`;
and in every case its squared length is at most `(2 * half_width)^2`. A collinear join
has `dot = 1 >= 0.95` and therefore takes this path, as the witness shows. -/
theorem miter_join_spec (points : List RPoint) (half_width : ℝ) (round_joins : Bool) (i : ℕ)
    (h0 : 0 < i) (hn : i < points.length - 1) (hw : 0 ≤ half_width)
    (hm : ¬(round_joins = true ∧ vtxDot points i < 0.95)) :
    (offsetVertex points half_width round_joins i).1 =
        [((ptGetD points i).1 + (miterOffset (vtxN1 points i) (vtxN2 points i) half_width).1,
          (ptGetD points i).2 + (miterOffset (vtxN1 points i) (vtxN2 points i) half_width).2)] ∧
      (offsetVertex points half_width round_joins i).2 =
        [((ptGetD points i).1 - (miterOffset (vtxN1 points i) (vtxN2 points i) half_width).1,
          (ptGetD points i).2 - (miterOffset (vtxN1 points i) (vtxN2 points i) half_width).2)] ∧
      (Real.sqrt (((vtxN1 points i).1 + (vtxN2 points i).1) *
            ((vtxN1 points i).1 + (vtxN2 points i).1) +
            ((vtxN1 points i).2 + (vtxN2 points i).2) *
            ((vtxN1 points i).2 + (vtxN2 points i).2)) > 1e-12 →
        (miterOffset (vtxN1 points i) (vtxN2 points i) half_width).1 ^ 2 +
            (miterOffset (vtxN1 points i) (vtxN2 points i) half_width).2 ^ 2 =
          (half_width * min (1.0 / max 0.5 ((1 + vtxDot points i) / 2)) 2.0) ^ 2 ∧
        (miterOffset (vtxN1 points i) (vtxN2 points i) half_width).1 *
            ((vtxN1 points i).2 + (vtxN2 points i).2) =
          (miterOffset (vtxN1 points i) (vtxN2 points i) half_width).2 *
            ((vtxN1 points i).1 + (vtxN2 points i).1)) ∧
      (miterOffset (vtxN1 points i) (vtxN2 points i) half_width).1 ^ 2 +
          (miterOffset (vtxN1 points i) (vtxN2 points i) half_width).2 ^ 2 ≤
        (2 * half_width) ^ 2 := by
  have hi0 : i ≠ 0 := Nat.pos_iff_ne_zero.mp h0
  have hin : i ≠ points.length - 1 := Nat.ne_of_lt hn
  refine ⟨?_, ?_, ?_, ?_⟩
  · simp only [offsetVertex]
    rw [if_neg hi0, if_neg hin, if_neg hm]
  · simp only [offsetVertex]
    rw [if_neg hi0, if_neg hin, if_neg hm]
  · intro hbl
    exact miterOffset_formula (vtxN1 points i) (vtxN2 points i) half_width hbl
  · exact miterOffset_norm_le (vtxN1 points i) (vtxN2 points i) half_width
      (normal_vec_norm_sq _ _) hw

theorem normal_vec_e1 : normal_vec ((0 : ℝ), (0 : ℝ)) ((1 : ℝ), (0 : ℝ)) = (0, 1) := by
  rw [normal_vec_of_unit _ _ segLength_unit_e1]
  norm_num

theorem normal_vec_e1' : normal_vec ((1 : ℝ), (0 : ℝ)) ((2 : ℝ), (0 : ℝ)) = (0, 1) := by
  rw [normal_vec_of_unit _ _ (segLength_eq_one _ _ (by norm_num))]
  norm_num

theorem vtxN1_collinear : vtxN1 collinearPts 1 = (0, 1) := normal_vec_e1

theorem vtxN2_collinear : vtxN2 collinearPts 1 = (0, 1) := normal_vec_e1'

theorem vtxDot_collinear : vtxDot collinearPts 1 = 1 := by
  unfold vtxDot
  rw [vtxN1_collinear, vtxN2_collinear]
  norm_num

theorem sqrt_four : Real.sqrt 4 = 2 := by
  rw [show (4 : ℝ) = 2 ^ 2 from by norm_num, Real.sqrt_sq (by norm_num)]

theorem miterOffset_parallel_units : miterOffset ((0 : ℝ), (1 : ℝ)) ((0 : ℝ), (1 : ℝ)) 1 = (0, 1) := by
  simp only [miterOffset]
  rw [if_pos (by norm_num [sqrt_four])]
  norm_num [sqrt_four]

theorem miter_join_spec_witness :
    (offsetVertex collinearPts 1 true 1).1 = [((1 : ℝ), (1 : ℝ))] ∧
      (offsetVertex collinearPts 1 true 1).2 = [((1 : ℝ), (-1 : ℝ))] := by
  have hm : ¬((true : Bool) = true ∧ vtxDot collinearPts 1 < 0.95) := by
    rw [vtxDot_collinear]
    norm_num
  have h := miter_join_spec collinearPts 1 true 1 (by norm_num)
    (by norm_num [collinearPts]) (by norm_num) hm
  have hMD : miterOffset (vtxN1 collinearPts 1) (vtxN2 collinearPts 1) 1 = (0, 1) := by
    rw [vtxN1_collinear, vtxN2_collinear]
    exact miterOffset_parallel_units
  have hP : ptGetD collinearPts 1 = ((1 : ℝ), (0 : ℝ)) := rfl
  constructor
  · rw [h.1, hMD, hP]
    norm_num
  · rw [h.2.1, hMD, hP]
    norm_num

theorem normal_vec_back : normal_vec ((1 : ℝ), (0 : ℝ)) ((0 : ℝ), (0 : ℝ)) = (0, -1) := by
  rw [normal_vec_of_unit _ _ (segLength_eq_one _ _ (by norm_num))]
  norm_num

theorem vtxDot_reversal : vtxDot reversalPts 1 = -1 := by
  unfold vtxDot
  have h1 : vtxN1 reversalPts 1 = (0, 1) := normal_vec_e1
  have h2 : vtxN2 reversalPts 1 = (0, -1) := normal_vec_back
  rw [h1, h2]
  norm_num

/-- Claim C3, counterexample. At the reversal join `(0,0)-(1,0)-(0,0)` with round joins
disabled, the miter branch is taken but the bisector is degenerate (`n2 = -n1`), and the
source falls back to displacing along `n1` by `half_width`: the emitted left offset
point is `(1, 1)`, at squared distance 1 from the vertex `(1, 0)`, whereas the claimed
displacement `min(1/max(0.5, (1+dot)/2), 2) * halfWidth = 2` has square 4. -/
theorem miter_degenerate_counterexample :
    (offsetVertex reversalPts 1 false 1).1 = [((1 : ℝ), (1 : ℝ))] ∧
      min (1.0 / max 0.5 ((1 + vtxDot reversalPts 1) / 2)) 2.0 * 1 = 2 ∧
      ((1 : ℝ) - (ptGetD reversalPts 1).1) ^ 2 + ((1 : ℝ) - (ptGetD reversalPts 1).2) ^ 2 ≠
        (min (1.0 / max 0.5 ((1 + vtxDot reversalPts 1) / 2)) 2.0 * 1) ^ 2 := by
  have h1 : vtxN1 reversalPts 1 = (0, 1) := normal_vec_e1
  have h2 : vtxN2 reversalPts 1 = (0, -1) := normal_vec_back
  refine ⟨?_, ?_, ?_⟩
  · simp only [offsetVertex]
    rw [if_neg (by norm_num), if_neg (by norm_num [reversalPts]),
      if_neg (by simp)]
    have hMD : miterOffset (vtxN1 reversalPts 1) (vtxN2 reversalPts 1) 1 = (0, 1) := by
      rw [h1, h2]
      simp only [miterOffset]
      rw [if_neg (by norm_num)]
      norm_num
    rw [hMD]
    have hP : ptGetD reversalPts 1 = ((1 : ℝ), (0 : ℝ)) := rfl
    rw [hP]
    norm_num
  · rw [vtxDot_reversal]
    norm_num
  · rw [vtxDot_reversal]
    have hP : ptGetD reversalPts 1 = ((1 : ℝ), (0 : ℝ)) := rfl
    rw [hP]
    norm_num

/-- Claim C4. At an interior vertex with round joins enabled and `dot < 0.95`, the
offsetter appends the arc fan to the left path and the mirrored fan (angles shifted by
pi, same normalized sweep) to the right path; the fan has at least 2 sub-segments, its
sweep is along the shorter direction (absolute value at most pi) in steps of under 30
degrees, and it runs from the angle of `n1` to the angle of `n2`: the cosine and sine at
the start angle are the components of `n1` and at the end of the sweep those of
`n2`. -/
theorem round_join_arc_fan (points : List RPoint) (half_width : ℝ) (i : ℕ)
    (h0 : 0 < i) (hn : i < points.length - 1) (hdot : vtxDot points i < 0.95) :
    (offsetVertex points half_width true i).1 =
        arcFan (ptGetD points i) half_width (vtxAngle1 points i)
          (arcDa (vtxAngle1 points i) (vtxAngle2 points i))
          (arcSegs (arcDa (vtxAngle1 points i) (vtxAngle2 points i))) ∧
      (offsetVertex points half_width true i).2 =
        arcFan (ptGetD points i) half_width (vtxAngle1 points i + Real.pi)
          (arcDa (vtxAngle1 points i) (vtxAngle2 points i))
          (arcSegs (arcDa (vtxAngle1 points i) (vtxAngle2 points i))) ∧
      2 ≤ arcSegs (arcDa (vtxAngle1 points i) (vtxAngle2 points i)) ∧
      |arcDa (vtxAngle1 points i) (vtxAngle2 points i)| ≤ Real.pi ∧
      |arcDa (vtxAngle1 points i) (vtxAngle2 points i)| /
          (arcSegs (arcDa (vtxAngle1 points i) (vtxAngle2 points i)) : ℝ) < Real.pi / 6 ∧
      Real.cos (vtxAngle1 points i) = (vtxN1 points i).1 ∧
      Real.sin (vtxAngle1 points i) = (vtxN1 points i).2 ∧
      Real.cos (vtxAngle1 points i + arcDa (vtxAngle1 points i) (vtxAngle2 points i)) =
        (vtxN2 points i).1 ∧
      Real.sin (vtxAngle1 points i + arcDa (vtxAngle1 points i) (vtxAngle2 points i)) =
        (vtxN2 points i).2 := by
  have hi0 : i ≠ 0 := Nat.pos_iff_ne_zero.mp h0
  have hin : i ≠ points.length - 1 := Nat.ne_of_lt hn
  have hcond : True ∧ vtxDot points i < 0.95 := ⟨trivial, hdot⟩
  have hc1 := cos_sin_atan2_unit (vtxN1 points i) (normal_vec_norm_sq _ _)
  have hc2 := cos_sin_atan2_unit (vtxN2 points i) (normal_vec_norm_sq _ _)
  have hca := cos_sin_arcDa_add (vtxAngle1 points i) (vtxAngle2 points i)
  refine ⟨?_, ?_, arcSegs_ge_two _, ?_, arcSegs_step_lt _, hc1.1, hc1.2, ?_, ?_⟩
  · simp only [offsetVertex]
    rw [if_neg hi0, if_neg hin, if_pos hcond]
  · simp only [offsetVertex]
    rw [if_neg hi0, if_neg hin, if_pos hcond, arcDa_add_pi]
  · exact arcDa_abs_le _ _ (neg_pi_lt_atan2 _ _) (atan2_le_pi _ _)
      (neg_pi_lt_atan2 _ _) (atan2_le_pi _ _)
  · rw [hca.1]
    exact hc2.1
  · rw [hca.2]
    exact hc2.2

theorem normal_vec_up : normal_vec ((1 : ℝ), (0 : ℝ)) ((1 : ℝ), (1 : ℝ)) = (-1, 0) := by
  rw [normal_vec_of_unit _ _ (segLength_eq_one _ _ (by norm_num))]
  norm_num

theorem vtxDot_corner : vtxDot cornerPts 1 = 0 := by
  unfold vtxDot
  have h1 : vtxN1 cornerPts 1 = (0, 1) := normal_vec_e1
  have h2 : vtxN2 cornerPts 1 = (-1, 0) := normal_vec_up
  rw [h1, h2]
  norm_num

theorem round_join_arc_fan_witness :
    (offsetVertex cornerPts 1 true 1).1 =
        arcFan (ptGetD cornerPts 1) 1 (vtxAngle1 cornerPts 1)
          (arcDa (vtxAngle1 cornerPts 1) (vtxAngle2 cornerPts 1))
          (arcSegs (arcDa (vtxAngle1 cornerPts 1) (vtxAngle2 cornerPts 1))) ∧
      2 ≤ arcSegs (arcDa (vtxAngle1 cornerPts 1) (vtxAngle2 cornerPts 1)) := by
  have h := round_join_arc_fan cornerPts 1 1 (by norm_num) (by norm_num [cornerPts])
    (by rw [vtxDot_corner]; norm_num)
  exact ⟨h.1, h.2.2.1⟩

/-- Claim C2. With round caps enabled and at least 2 points, the polygon is the left
path, then the end cap, then the reversed right path, then the start cap. Each cap has
`ENDCAP_SEGMENTS - 1` interior points on a semicircle swept 180 degrees in
`ENDCAP_SEGMENTS` steps: the end cap sweeps from the angle of the left normal down to
the angle of the right normal (cosine and sine at the sweep start equal the left normal,
at `start_angle - pi` the right normal), and at half sweep, `start_angle - pi/2`, its
direction is exactly the unit tangent of the final segment - the sweep direction is the
one determined by the local tangent. The start cap is the mirrored semicircle, starting
at the negated first normal. -/
theorem round_caps_semicircles (points : List RPoint) (half_width : ℝ) (round_joins : Bool)
    (h2 : 2 ≤ points.length) :
    offset_polyline_to_polygon points half_width true round_joins =
        leftPath points half_width round_joins ++ endCap points half_width ++
          ((rightPath points half_width round_joins).reverse ++ startCap points half_width) ∧
      (endCap points half_width).length = ENDCAP_SEGMENTS - 1 ∧
      (startCap points half_width).length = ENDCAP_SEGMENTS - 1 ∧
      endCap points half_width = (List.range' 1 (ENDCAP_SEGMENTS - 1)).map (fun (j : ℕ) =>
        ((ptGetD points (points.length - 1)).1 +
            Real.cos (endAngle points - (j : ℝ) / (ENDCAP_SEGMENTS : ℝ) * Real.pi) * half_width,
          (ptGetD points (points.length - 1)).2 +
            Real.sin (endAngle points - (j : ℝ) / (ENDCAP_SEGMENTS : ℝ) * Real.pi) *
              half_width)) ∧
      Real.cos (endAngle points) = (endNormal points).1 ∧
      Real.sin (endAngle points) = (endNormal points).2 ∧
      Real.cos (endAngle points - Real.pi) = -(endNormal points).1 ∧
      Real.sin (endAngle points - Real.pi) = -(endNormal points).2 ∧
      Real.cos (startAngle points) = -(startNormal points).1 ∧
      Real.sin (startAngle points) = -(startNormal points).2 ∧
      ((1e-12 : ℝ) ≤
          segLength (ptGetD points (points.length - 2)) (ptGetD points (points.length - 1)) →
        Real.cos (endAngle points - Real.pi / 2) =
            ((ptGetD points (points.length - 1)).1 - (ptGetD points (points.length - 2)).1) /
              segLength (ptGetD points (points.length - 2))
                (ptGetD points (points.length - 1)) ∧
          Real.sin (endAngle points - Real.pi / 2) =
            ((ptGetD points (points.length - 1)).2 - (ptGetD points (points.length - 2)).2) /
              segLength (ptGetD points (points.length - 2))
                (ptGetD points (points.length - 1))) := by
  have hcos : Real.cos (endAngle points) = (endNormal points).1 ∧
      Real.sin (endAngle points) = (endNormal points).2 :=
    cos_sin_atan2_unit (endNormal points) (normal_vec_norm_sq _ _)
  have hstart : Real.cos (startAngle points) = -(startNormal points).1 ∧
      Real.sin (startAngle points) = -(startNormal points).2 := by
    have hu : (-(startNormal points).1) ^ 2 + (-(startNormal points).2) ^ 2 = 1 := by
      have := normal_vec_norm_sq (ptGetD points 0) (ptGetD points 1)
      unfold startNormal
      nlinarith [this]
    exact cos_sin_atan2_unit (-(startNormal points).1, -(startNormal points).2) hu
  refine ⟨?_, ?_, ?_, ?_, hcos.1, hcos.2, ?_, ?_, hstart.1, hstart.2, ?_⟩
  · unfold offset_polyline_to_polygon
    rw [if_neg (by omega)]
    rw [if_pos rfl, if_pos rfl]
  · unfold endCap
    rw [List.length_map, List.length_range']
  · unfold startCap
    rw [List.length_map, List.length_range']
  · rfl
  · rw [Real.cos_sub_pi, hcos.1]
  · rw [Real.sin_sub, Real.sin_pi, Real.cos_pi, hcos.2]
    ring
  · intro hL
    have hnd : ¬ segLength (ptGetD points (points.length - 2))
        (ptGetD points (points.length - 1)) < 1e-12 := not_lt.mpr hL
    have hnv : endNormal points =
        (-((ptGetD points (points.length - 1)).2 - (ptGetD points (points.length - 2)).2) /
            segLength (ptGetD points (points.length - 2)) (ptGetD points (points.length - 1)),
          ((ptGetD points (points.length - 1)).1 - (ptGetD points (points.length - 2)).1) /
            segLength (ptGetD points (points.length - 2))
              (ptGetD points (points.length - 1))) := by
      unfold endNormal normal_vec
      rw [if_neg hnd]
    constructor
    · rw [Real.cos_sub, Real.cos_pi_div_two, Real.sin_pi_div_two, hcos.2, hnv]
      ring
    · rw [Real.sin_sub, Real.cos_pi_div_two, Real.sin_pi_div_two, hcos.1, hnv]
      ring

theorem round_caps_semicircles_witness :
    offset_polyline_to_polygon segPts 1 true true =
        leftPath segPts 1 true ++ endCap segPts 1 ++
          ((rightPath segPts 1 true).reverse ++ startCap segPts 1) ∧
      (endCap segPts 1).length = ENDCAP_SEGMENTS - 1 :=
  ⟨(round_caps_semicircles segPts 1 true (by norm_num [segPts])).1,
    (round_caps_semicircles segPts 1 true (by norm_num [segPts])).2.1⟩

theorem offsetVertex_fst_length_pos (points : List RPoint) (half_width : ℝ)
    (round_joins : Bool) (i : ℕ) :
    1 ≤ (offsetVertex points half_width round_joins i).1.length := by
  simp only [offsetVertex]
  by_cases h0 : i = 0
  · rw [if_pos h0]
    simp
  · rw [if_neg h0]
    by_cases hn : i = points.length - 1
    · rw [if_pos hn]
      simp
    · rw [if_neg hn]
      by_cases hj : round_joins = true ∧ vtxDot points i < 0.95
      · rw [if_pos hj]
        simp [arcFan]
      · rw [if_neg hj]
        simp

theorem offsetVertex_snd_length_pos (points : List RPoint) (half_width : ℝ)
    (round_joins : Bool) (i : ℕ) :
    1 ≤ (offsetVertex points half_width round_joins i).2.length := by
  simp only [offsetVertex]
  by_cases h0 : i = 0
  · rw [if_pos h0]
    simp
  · rw [if_neg h0]
    by_cases hn : i = points.length - 1
    · rw [if_pos hn]
      simp
    · rw [if_neg hn]
      by_cases hj : round_joins = true ∧ vtxDot points i < 0.95
      · rw [if_pos hj]
        simp [arcFan]
      · rw [if_neg hj]
        simp

/-- A flat map over per-element nonempty lists is at least as long as the index list. -/
theorem flatMap_length_ge {α β : Type} (l : List α) (f : α → List β)
    (h : ∀ x ∈ l, 1 ≤ (f x).length) : l.length ≤ (l.flatMap f).length := by
  induction l with
  | nil => simp
  | cons a l ih =>
      rw [List.flatMap_cons, List.length_append, List.length_cons]
      have h1 := h a (List.mem_cons_self a l)
      have h2 := ih fun x hx => h x (List.mem_cons_of_mem a hx)
      omega

/-- Claim C5. For every polyline with `n >= 2` points, the offset polygon has at least
`2 * n` vertices (each vertex contributes at least one point to the left path and one to
the right path), plus `2 * (ENDCAP_SEGMENTS - 1)` cap points when round caps are
enabled. -/
theorem offset_polygon_min_vertices (points : List RPoint) (half_width : ℝ)
    (round_caps round_joins : Bool) (h : 2 ≤ points.length) :
    2 * points.length + (if round_caps = true then 2 * (ENDCAP_SEGMENTS - 1) else 0) ≤
      (offset_polyline_to_polygon points half_width round_caps round_joins).length := by
  unfold offset_polyline_to_polygon
  rw [if_neg (not_lt.mpr h)]
  have hLeft : points.length ≤ (leftPath points half_width round_joins).length := by
    unfold leftPath
    have hfm := flatMap_length_ge (List.range points.length)
      (fun i => (offsetVertex points half_width round_joins i).1)
      (fun i _ => offsetVertex_fst_length_pos points half_width round_joins i)
    rwa [List.length_range] at hfm
  have hRight : points.length ≤ (rightPath points half_width round_joins).length := by
    unfold rightPath
    have hfm := flatMap_length_ge (List.range points.length)
      (fun i => (offsetVertex points half_width round_joins i).2)
      (fun i _ => offsetVertex_snd_length_pos points half_width round_joins i)
    rwa [List.length_range] at hfm
  have hEnd : (endCap points half_width).length = ENDCAP_SEGMENTS - 1 := by
    unfold endCap
    rw [List.length_map, List.length_range']
  have hStart : (startCap points half_width).length = ENDCAP_SEGMENTS - 1 := by
    unfold startCap
    rw [List.length_map, List.length_range']
  cases round_caps
  · rw [if_neg Bool.false_ne_true, if_neg Bool.false_ne_true]
    simp only [List.length_append, List.length_reverse, List.length_nil]
    omega
  · simp only [eq_self_iff_true, if_true, List.length_append, List.length_reverse, hEnd, hStart]
    omega

theorem offset_polygon_min_vertices_witness :
    2 * ([((0 : ℝ), (0 : ℝ)), ((1 : ℝ), (0 : ℝ))] : List RPoint).length +
        (if (true : Bool) = true then 2 * (ENDCAP_SEGMENTS - 1) else 0) ≤
      (offset_polyline_to_polygon [((0 : ℝ), (0 : ℝ)), ((1 : ℝ), (0 : ℝ))] 1 true true).length :=
  offset_polygon_min_vertices [((0 : ℝ), (0 : ℝ)), ((1 : ℝ), (0 : ℝ))] 1 true true (by simp)

end LogoFootprints
